import Mathlib

/-!
Formal model of the ollama-proxy reverse proxy (Go), shallowly embedded in
Lean 4.  Strings are modelled as `List Char`; Go byte positions coincide
with character positions at every boundary the code inspects (all the
delimiter characters involved are ASCII).

The repository contains several near-duplicate snapshots of the proxy
module.  Where they differ, each variant is modelled separately:
  * `internal/proxy/proxy.go`   - verbose eager body capture, no version patch
  * `src/unnamed/part_001`      - chunked cleanup + error/chunked snippet +
                                  version patch that also removes the
                                  chunked transfer-encoding marker
  * `src/unnamed/part_002`      - version patch without transfer-encoding
                                  removal + streaming `responseLogger`
-/

namespace OllamaProxy

/-! ### Go standard-library string primitives

`replaceAll pat rep s` models `strings.ReplaceAll(s, pat, rep)`:
leftmost, non-overlapping occurrences of `pat` are replaced by `rep`.
(`strings.ReplaceAll` with an empty pattern inserts `rep` between
characters; that case is unreachable here - every call site passes a
non-empty pattern - and the model returns `s` unchanged then.) -/

def replaceAllF (pat rep : List Char) : Nat → List Char → List Char
  | 0, s => s
  | _ + 1, [] => []
  | n + 1, c :: cs =>
    if pat ≠ [] ∧ pat <+: (c :: cs) then
      rep ++ replaceAllF pat rep n ((c :: cs).drop pat.length)
    else
      c :: replaceAllF pat rep n cs

/-- `replaceAll pat rep s` with the fuel instantiated to the length of the
scanned string, which always suffices. -/
def replaceAll (pat rep s : List Char) : List Char :=
  replaceAllF pat rep s.length s

def splitOnSepF (sep : List Char) : Nat → List Char → List (List Char)
  | 0, s => [s]
  | _ + 1, [] => [[]]
  | n + 1, c :: cs =>
    if sep ≠ [] ∧ sep <+: (c :: cs) then
      [] :: splitOnSepF sep n ((c :: cs).drop sep.length)
    else
      match splitOnSepF sep n cs with
      | [] => [[c]]
      | p :: ps => (c :: p) :: ps

/-- `splitOnSep sep s` models `strings.Split(s, sep)` for a non-empty
separator: the list of segments between leftmost, non-overlapping
occurrences of `sep`.  (`strings.Split` with an empty separator splits
into characters; unreachable here, the model returns `[s]` then.) -/
def splitOnSep (sep s : List Char) : List (List Char) :=
  splitOnSepF sep s.length s

/-- `joinSep sep ps` models `strings.Join(ps, sep)`. -/
def joinSep (sep : List Char) : List (List Char) → List Char
  | [] => []
  | [p] => p
  | p :: q :: ps => p ++ sep ++ joinSep sep (q :: ps)

/-! ### The redactor (`maskSensitive`, identical in all three snapshots) -/

/-- The fixed placeholder `"[REDACTED]"`. -/
def redactedStr : List Char := "[REDACTED]".data

/-- The separator `"Bearer "` used by the generic bearer-token sweep. -/
def bearerSp : List Char := "Bearer ".data

/-- Whitespace characters probed by `strings.IndexAny(part, " \t\n\r")`. -/
def isWsChar (c : Char) : Bool :=
  c = ' ' || c = '\t' || c = '\n' || c = '\r'

/-- Body of the sweep loop: `strings.IndexAny(part, " \t\n\r")` finds the
first whitespace; the token before it (or the whole part) is replaced by
the placeholder.  Models lines 33-41 of `maskSensitive` in
`internal/proxy/proxy.go`. -/
def redactToken (part : List Char) : List Char :=
  match part.findIdx? isWsChar with
  | none => redactedStr
  | some i => redactedStr ++ part.drop i

/-- The generic bearer-token sweep: split on `"Bearer "`, redact the head
token of every part after the first, and re-join. -/
def sweepBearer (s : List Char) : List Char :=
  match splitOnSep bearerSp s with
  | [] => s
  | p :: ps => joinSep bearerSp (p :: ps.map redactToken)

/-- `maskSensitive apiKey s` models `maskSensitive` from
`internal/proxy/proxy.go` (lines 19-45; byte-identical in `part_001` and
`part_002`): when the key is non-empty, replace every occurrence of the
key and of `"Bearer " + key` with the placeholder; then, whenever
`"Bearer "` still occurs (`strings.Contains`), run the generic sweep. -/
def maskSensitive (apiKey s : List Char) : List Char :=
  let s1 := if apiKey ≠ [] then
      replaceAll (bearerSp ++ apiKey) (bearerSp ++ redactedStr)
        (replaceAll apiKey redactedStr s)
    else s
  if bearerSp <:+: s1 then sweepBearer s1 else s1

/-! ### Specification-side redactor (for the refinement claim C8)

`redactSpecC8` follows the words of the spec contract: every exact
occurrence of the secret is replaced with the placeholder (only when the
secret is non-empty), and then every substring consisting of `"Bearer "`
followed by a maximal run of non-whitespace characters is replaced by
`"Bearer "` + placeholder, scanning left to right and resuming after each
replaced region. -/

def bearerSweepSpecF : Nat → List Char → List Char
  | 0, s => s
  | _ + 1, [] => []
  | n + 1, c :: cs =>
    if bearerSp <+: (c :: cs) then
      bearerSp ++ redactedStr ++
        bearerSweepSpecF n
          (((c :: cs).drop bearerSp.length).dropWhile (fun ch => !isWsChar ch))
    else c :: bearerSweepSpecF n cs

def bearerSweepSpec (s : List Char) : List Char :=
  bearerSweepSpecF s.length s

/-- Modelled from the spec words of §4.1 (Redactor contract), to be compared
with the implementation `maskSensitive`. -/
def redactSpecC8 (secret s : List Char) : List Char :=
  bearerSweepSpec (if secret ≠ [] then replaceAll secret redactedStr s else s)

/-! ### HTTP header model

Go's `http.Header` is a map from canonical keys to value slices; keys are
unique.  `hGet` models `Header.Get` (first value of the entry, `""` when
absent), `hHas` models the `prior, ok := r.Header[k]` test, `hSet` models
`Header.Set` (entry replaced by a one-element slice). -/

def hGet : List (String × List String) → String → String
  | [], _ => ""
  | (k', vs) :: t, k =>
    if k' = k then (match vs with | [] => "" | v :: _ => v) else hGet t k

def hHas : List (String × List String) → String → Bool
  | [], _ => false
  | (k', _) :: t, k => k' = k || hHas t k

def hSet : List (String × List String) → String → String → List (String × List String)
  | [], k, v => [(k, [v])]
  | (k', vs) :: t, k, v =>
    if k' = k then (k, [v]) :: t else (k', vs) :: hSet t k v

/-! ### Request model and the Director -/

structure Url where
  scheme : String
  host : String

/-- The fields of an in-flight `*http.Request` that the Director reads or
writes.  `urlScheme`/`urlHost` are `r.URL.Scheme`/`r.URL.Host`; `host` is
`r.Host`; `body` is the content of `r.Body` (`none` models a nil body). -/
structure Request where
  urlScheme : String
  urlHost : String
  host : String
  remoteAddr : String
  headers : List (String × List String)
  body : Option (List Char)

/-- `const maxLogBody = 1 << 20`. -/
def maxLogBody : Nat := 1 <<< 20

/-- Verbose-mode body capture, lines 98-105 of `internal/proxy/proxy.go`
(identical in the `part_002` Director and in the proxy.go ModifyResponse):
`b, _ := io.ReadAll(io.LimitReader(body, maxLogBody+1))`, then
`if len(b) > maxLogBody { b = b[:maxLogBody] }`, and the stream is
replaced by `io.NopCloser(bytes.NewReader(b))`. -/
def captureTrunc (b : List Char) : List Char :=
  let t := b.take (maxLogBody + 1)
  if maxLogBody < t.length then t.take maxLogBody else t

/-- The Director of `NewReverseProxy` (lines 57-114 of
`internal/proxy/proxy.go`; the snapshots differ only in whether the
verbose block is present, which the `verbose` flag captures).  Order of
effects is exactly the source order: the stock single-host director
rewrites `r.URL` to the target, then `r.Host` is set, then the
`X-Forwarded-*` headers, then the Authorization injection, then the
verbose body capture. -/
def director (target : Url) (apiKey : String) (preserveAuth verbose : Bool)
    (r : Request) : Request :=
  let r := { r with urlScheme := target.scheme, urlHost := target.host }
  let r := { r with host := target.host }
  let r := { r with headers :=
    (if hHas r.headers "X-Forwarded-For" then
      hSet r.headers "X-Forwarded-For"
        (hGet r.headers "X-Forwarded-For" ++ ", " ++ r.remoteAddr)
    else
      hSet r.headers "X-Forwarded-For" r.remoteAddr) }
  let r := { r with headers := hSet r.headers "X-Forwarded-Proto" r.urlScheme }
  let r := { r with headers := hSet r.headers "X-Forwarded-Host" r.host }
  let token :=
    if 7 ≤ apiKey.length ∧ apiKey.take 7 = "Bearer " then apiKey
    else "Bearer " ++ apiKey
  let r :=
    if apiKey ≠ "" ∧ ¬(preserveAuth = true ∧ hGet r.headers "Authorization" ≠ "") then
      { r with headers := hSet r.headers "Authorization" token }
    else r
  if verbose then { r with body := r.body.map captureTrunc } else r

/-! ### Verbose log record model -/

/-- Header sanitisation of the verbose blocks (lines 87-94 and 119-126 of
`internal/proxy/proxy.go`): the `Authorization` entry is replaced by the
fixed marker, every other entry is copied verbatim. -/
def sanitizeHeaders : List (String × List String) → List (String × List String)
  | [] => []
  | (k, vs) :: t =>
    (if k = "Authorization" then (k, ["Bearer [REDACTED]"]) else (k, vs)) ::
      sanitizeHeaders t

def headerValuesChars : List (String × List String) → List Char
  | [] => []
  | (_, vs) :: t => (vs.map String.data).flatten ++ headerValuesChars t

/-- The variable parts of the verbose request log record
`log.Printf("-> request %s %s headers=%v body=%s", ...)`: the sanitised
header values followed by the redacted body string (with the truncation
marker).  The constant format scaffolding is omitted; a secret occurs in
the record iff it occurs in one of these parts (or straddles a boundary,
which only makes the record leak more). -/
def requestLogDump (apiKey : List Char) (hdrs : List (String × List String))
    (body : Option (List Char)) : List Char :=
  headerValuesChars (sanitizeHeaders hdrs) ++
    (match body with
     | none => []
     | some b =>
       maskSensitive apiKey (captureTrunc b) ++
         (if maxLogBody < (b.take (maxLogBody + 1)).length
          then "...[truncated]".data else []))

/-! ### JSON model (for the `/api/version` patch)

`json.Unmarshal(b, &m)` with `m : map[string]interface{}` is abstracted by
a `parse` function passed as a parameter (`none` models an unmarshal
error, including a top-level non-object); `json.Marshal` of such a map is
modelled by `marshal`, which escapes the characters relevant to Go's
default encoder.  Go additionally emits map keys in sorted order; the
abstract parse result stands for an unordered map, so the model's field
order is taken to be that sorted order. -/

inductive JVal where
  | jnull : JVal
  | jbool : Bool → JVal
  | jnum : Int → JVal
  | jstr : String → JVal
  | jarr : List JVal → JVal
  | jobj : List (String × JVal) → JVal

def escapeChar (c : Char) : List Char :=
  if c = '"' then ['\\', '"']
  else if c = '\\' then ['\\', '\\']
  else if c = '\n' then ['\\', 'n']
  else if c = '\t' then ['\\', 't']
  else if c = '\r' then ['\\', 'r']
  else if c = '<' then "\\u003c".data
  else if c = '>' then "\\u003e".data
  else if c = '&' then "\\u0026".data
  else [c]

def escapeStr (s : String) : List Char :=
  (s.data.map escapeChar).flatten

mutual

def marshal : JVal → List Char
  | .jnull => "null".data
  | .jbool true => "true".data
  | .jbool false => "false".data
  | .jnum n => (toString n).data
  | .jstr s => '"' :: (escapeStr s ++ ['"'])
  | .jarr xs => '[' :: (marshalArr xs ++ [']'])
  | .jobj fs => '\x7b' :: (marshalObj fs ++ ['\x7d'])

def marshalArr : List JVal → List Char
  | [] => []
  | [x] => marshal x
  | x :: y :: t => marshal x ++ ',' :: marshalArr (y :: t)

def marshalObj : List (String × JVal) → List Char
  | [] => []
  | [(k, v)] => '"' :: (escapeStr k ++ '"' :: ':' :: marshal v)
  | (k, v) :: h :: t =>
    ('"' :: (escapeStr k ++ '"' :: ':' :: marshal v)) ++ ',' :: marshalObj (h :: t)

end

/-- `m["version"] = fallback` on the unmarshalled map. -/
def setKey : List (String × JVal) → String → JVal → List (String × JVal)
  | [], k, v => [(k, v)]
  | (k', v') :: t, k, v =>
    if k' = k then (k, v) :: t else (k', v') :: setKey t k v

/-! ### Response model and the ModifyResponse variants -/

/-- The fields of an in-flight `*http.Response` that ModifyResponse reads
or writes.  `hasRequest` models `resp.Request != nil`; `reqPath` is
`resp.Request.URL.Path`; `contentTypeHdr` is `Header.Get("Content-Type")`;
`contentLengthHdr`/`teHdr` model presence and value of the
`Content-Length`/`Transfer-Encoding` headers; `transferEncoding` is the
`resp.TransferEncoding` field; `body` is the content of `resp.Body`. -/
structure Resp where
  hasRequest : Bool
  reqPath : String
  statusCode : Nat
  contentTypeHdr : String
  body : Option (List Char)
  transferEncoding : List String
  teHdr : Option String
  contentLengthHdr : Option String
  contentLength : Int

/-- `strings.EqualFold(te, "chunked")` over the transfer-encoding list. -/
def chunkedInTE (te : List String) : Bool :=
  te.any (fun s => s.toLower = "chunked")

/-- The `/api/version` patch exactly as in `part_001` lines 215-250: on a
version-info path with JSON content type, the body is fully read; if it
unmarshals and the `version` field is a bad sentinel, the re-marshalled
object replaces the body with `Content-Length` recomputed and the chunked
marker removed; otherwise the original bytes are restored. -/
def versionPatchFull (parse : List Char → Option (List (String × JVal)))
    (versionFallback : String) (r : Resp) : Resp :=
  if r.hasRequest = true ∧ "/api/version".data <:+ r.reqPath.data ∧
      "application/json".data <:+: r.contentTypeHdr.data then
    match r.body with
    | none => r
    | some b =>
      match parse b with
      | none => { r with body := some b }
      | some m =>
        let fallback := if versionFallback = "" then "0.15.2" else versionFallback
        match List.lookup "version" m with
        | some (JVal.jstr v) =>
          if v = "0.0.0" ∨ v = "0.0.0.0" then
            let nb := marshal (JVal.jobj (setKey m "version" (JVal.jstr fallback)))
            { r with body := some nb, contentLength := (nb.length : Int),
                     contentLengthHdr := some (toString nb.length),
                     teHdr := none, transferEncoding := [] }
          else { r with body := some b }
        | _ => { r with body := some b }
  else r

/-- The `/api/version` patch exactly as in `part_002` lines 163-195: same
as `versionPatchFull` but WITHOUT the `Transfer-Encoding` removal. -/
def versionPatchNoTE (parse : List Char → Option (List (String × JVal)))
    (versionFallback : String) (r : Resp) : Resp :=
  if r.hasRequest = true ∧ "/api/version".data <:+ r.reqPath.data ∧
      "application/json".data <:+: r.contentTypeHdr.data then
    match r.body with
    | none => r
    | some b =>
      match parse b with
      | none => { r with body := some b }
      | some m =>
        let fallback := if versionFallback = "" then "0.15.2" else versionFallback
        match List.lookup "version" m with
        | some (JVal.jstr v) =>
          if v = "0.0.0" ∨ v = "0.0.0.0" then
            let nb := marshal (JVal.jobj (setKey m "version" (JVal.jstr fallback)))
            { r with body := some nb, contentLength := (nb.length : Int),
                     contentLengthHdr := some (toString nb.length) }
          else { r with body := some b }
        | _ => { r with body := some b }
  else r

/-- ModifyResponse of the `part_001` snapshot (lines 162-253): chunked
cleanup, error/chunked diagnostic capture (read up to `maxLogBody` bytes,
restore the body as `io.MultiReader(captured, rest)`), then the version
patch. -/
def modifyResponseFull (parse : List Char → Option (List (String × JVal)))
    (versionFallback : String) (r : Resp) : Resp :=
  let r := if chunkedInTE r.transferEncoding then
      { r with contentLengthHdr := none, contentLength := -1 } else r
  let r := if chunkedInTE r.transferEncoding ∨ 400 ≤ r.statusCode then
      match r.body with
      | some b => { r with body := some (b.take maxLogBody ++ b.drop maxLogBody) }
      | none => r
    else r
  versionPatchFull parse versionFallback r

/-- ModifyResponse of the `internal/proxy/proxy.go` snapshot (lines
116-146): in verbose mode the body is eagerly read through
`io.LimitReader(body, maxLogBody+1)`, truncated to `maxLogBody` bytes, and
the truncated capture becomes the body delivered to the client. -/
def modifyResponseEager (verbose : Bool) (r : Resp) : Resp :=
  if verbose then
    match r.body with
    | some b => { r with body := some (captureTrunc b) }
    | none => r
  else r

/-! ### The streaming `responseLogger` of `part_002` (lines 49-92)

The wrapped `rc` is `resp.Body`, an in-memory `bytes.Reader` in the
buffered cases; its `Read` returns `(0, io.EOF)` when no bytes remain and
`(min(k, len), nil)` otherwise.  `eofReads` and `closes` are bookkeeping
counters of the model (not code state): the number of `Read` calls that
observed `io.EOF` and the number of `Close` calls. -/

structure LoggerSt where
  remaining : List Char
  buf : List Char
  logged : Bool
  logCount : Nat
  eofReads : Nat
  closes : Nat

/-- `func (r *responseLogger) log()`: sets `logged` and emits the record
(`logCount` counts emissions). -/
def loggerLog (st : LoggerSt) : LoggerSt :=
  { st with logged := true, logCount := st.logCount + 1 }

/-- `func (r *responseLogger) Read(p []byte)` with `len(p) = k`. -/
def loggerRead (st : LoggerSt) (k : Nat) : LoggerSt :=
  if st.remaining.isEmpty then
    loggerLog { st with eofReads := st.eofReads + 1 }
  else
    let chunk := st.remaining.take k
    let st' := { st with remaining := st.remaining.drop k }
    if 0 < chunk.length ∧ st'.buf.length < maxLogBody then
      let remain := maxLogBody - st'.buf.length
      if remain < chunk.length then { st' with buf := st'.buf ++ chunk.take remain }
      else { st' with buf := st'.buf ++ chunk }
    else st'

/-- `func (r *responseLogger) Close()`. -/
def loggerClose (st : LoggerSt) : LoggerSt :=
  let st' := if st.logged = false then loggerLog st else st
  { st' with closes := st'.closes + 1 }

def initLogger (body : List Char) : LoggerSt :=
  { remaining := body, buf := [], logged := false, logCount := 0,
    eofReads := 0, closes := 0 }

inductive LogOp where
  | read : Nat → LogOp
  | close : LogOp

def loggerStep (st : LoggerSt) : LogOp → LoggerSt
  | .read k => loggerRead st k
  | .close => loggerClose st

def runLogger (body : List Char) (ops : List LogOp) : LoggerSt :=
  ops.foldl loggerStep (initLogger body)

def allCloses : List LogOp → Bool
  | [] => true
  | .close :: t => allCloses t
  | .read _ :: _ => false

/-- The consumption discipline of an HTTP client: all reads happen before
the body is closed. -/
def readsThenCloses : List LogOp → Bool
  | [] => true
  | .read _ :: t => readsThenCloses t
  | .close :: t => allCloses t

def hasClose : List LogOp → Bool
  | [] => false
  | .close :: _ => true
  | .read _ :: t => hasClose t

/-! Sanity checks of the embedding against the Go behaviour. -/

example :
    maskSensitive "sk".data "my sk here Bearer tok x".data =
      "my [REDACTED] here Bearer [REDACTED] x".data := by decide

example :
    maskSensitive [] "Bearer Bearer x".data =
      "Bearer [REDACTED]Bearer [REDACTED]".data := by decide

example :
    maskSensitive [] "a Bearer tok\nrest".data =
      "a Bearer [REDACTED]\nrest".data := by decide

example : maskSensitive "sk".data "no secrets".data = "no secrets".data := by
  decide

/-! ### Fuel irrelevance and equation lemmas -/

theorem replaceAllF_eq_of_le (pat rep : List Char) :
    ∀ n m s, List.length s ≤ n → List.length s ≤ m →
      replaceAllF pat rep n s = replaceAllF pat rep m s := by
  intro n
  induction n with
  | zero =>
    intro m s hs _
    have : s = [] := List.length_eq_zero.mp (Nat.le_zero.mp hs)
    subst this
    cases m <;> rfl
  | succ n ih =>
    intro m s hs hm
    cases s with
    | nil => cases m <;> rfl
    | cons c cs =>
      cases m with
      | zero => simp at hm
      | succ m =>
        show replaceAllF pat rep (n + 1) (c :: cs) = replaceAllF pat rep (m + 1) (c :: cs)
        rw [replaceAllF, replaceAllF]
        split
        next h =>
          have hp : 0 < pat.length := List.length_pos.mpr h.1
          have hd : ((c :: cs).drop pat.length).length ≤ n := by
            simp only [List.length_drop, List.length_cons]
            simp only [List.length_cons] at hs
            omega
          have hd' : ((c :: cs).drop pat.length).length ≤ m := by
            simp only [List.length_drop, List.length_cons]
            simp only [List.length_cons] at hm
            omega
          rw [ih m _ hd hd']
        next =>
          have hc : cs.length ≤ n := by
            simp only [List.length_cons] at hs; omega
          have hc' : cs.length ≤ m := by
            simp only [List.length_cons] at hm; omega
          rw [ih m _ hc hc']

theorem replaceAll_nil (pat rep : List Char) : replaceAll pat rep [] = [] := rfl

theorem replaceAll_cons (pat rep : List Char) (c : Char) (cs : List Char) :
    replaceAll pat rep (c :: cs) =
      if pat ≠ [] ∧ pat <+: (c :: cs) then
        rep ++ replaceAll pat rep ((c :: cs).drop pat.length)
      else c :: replaceAll pat rep cs := by
  show replaceAllF pat rep (c :: cs).length (c :: cs) = _
  rw [List.length_cons, replaceAllF]
  split
  next h =>
    have hp : 0 < pat.length := List.length_pos.mpr h.1
    congr 1
    apply replaceAllF_eq_of_le
    · simp only [List.length_drop, List.length_cons]; omega
    · exact Nat.le_refl _
  next => rfl

theorem splitOnSepF_eq_of_le (sep : List Char) :
    ∀ n m s, List.length s ≤ n → List.length s ≤ m →
      splitOnSepF sep n s = splitOnSepF sep m s := by
  intro n
  induction n with
  | zero =>
    intro m s hs _
    have : s = [] := List.length_eq_zero.mp (Nat.le_zero.mp hs)
    subst this
    cases m <;> rfl
  | succ n ih =>
    intro m s hs hm
    cases s with
    | nil => cases m <;> rfl
    | cons c cs =>
      cases m with
      | zero => simp at hm
      | succ m =>
        show splitOnSepF sep (n + 1) (c :: cs) = splitOnSepF sep (m + 1) (c :: cs)
        rw [splitOnSepF, splitOnSepF]
        split
        next h =>
          have hp : 0 < sep.length := List.length_pos.mpr h.1
          have hd : ((c :: cs).drop sep.length).length ≤ n := by
            simp only [List.length_drop, List.length_cons]
            simp only [List.length_cons] at hs
            omega
          have hd' : ((c :: cs).drop sep.length).length ≤ m := by
            simp only [List.length_drop, List.length_cons]
            simp only [List.length_cons] at hm
            omega
          rw [ih m _ hd hd']
        next =>
          have hc : cs.length ≤ n := by
            simp only [List.length_cons] at hs; omega
          have hc' : cs.length ≤ m := by
            simp only [List.length_cons] at hm; omega
          rw [ih m _ hc hc']

theorem splitOnSep_nil (sep : List Char) : splitOnSep sep [] = [[]] := rfl

theorem splitOnSep_cons (sep : List Char) (c : Char) (cs : List Char) :
    splitOnSep sep (c :: cs) =
      if sep ≠ [] ∧ sep <+: (c :: cs) then
        [] :: splitOnSep sep ((c :: cs).drop sep.length)
      else
        match splitOnSep sep cs with
        | [] => [[c]]
        | p :: ps => (c :: p) :: ps := by
  show splitOnSepF sep (c :: cs).length (c :: cs) = _
  rw [List.length_cons, splitOnSepF]
  split
  next h =>
    have hp : 0 < sep.length := List.length_pos.mpr h.1
    congr 1
    apply splitOnSepF_eq_of_le
    · simp only [List.length_drop, List.length_cons]; omega
    · exact Nat.le_refl _
  next => rfl

theorem bearerSweepSpecF_eq_of_le :
    ∀ n m s, List.length s ≤ n → List.length s ≤ m →
      bearerSweepSpecF n s = bearerSweepSpecF m s := by
  intro n
  induction n with
  | zero =>
    intro m s hs _
    have : s = [] := List.length_eq_zero.mp (Nat.le_zero.mp hs)
    subst this
    cases m <;> rfl
  | succ n ih =>
    intro m s hs hm
    cases s with
    | nil => cases m <;> rfl
    | cons c cs =>
      cases m with
      | zero => simp at hm
      | succ m =>
        show bearerSweepSpecF (n + 1) (c :: cs) = bearerSweepSpecF (m + 1) (c :: cs)
        rw [bearerSweepSpecF, bearerSweepSpecF]
        split
        next =>
          have hd : (((c :: cs).drop bearerSp.length).dropWhile
              (fun ch => !isWsChar ch)).length ≤ n := by
            have h1 := (List.IsSuffix.sublist (List.dropWhile_suffix
              (l := (c :: cs).drop bearerSp.length)
                (fun ch => !isWsChar ch))).length_le
            simp only [List.length_drop, List.length_cons] at h1 ⊢
            simp only [List.length_cons] at hs
            have hb : bearerSp.length = 7 := rfl
            omega
          have hd' : (((c :: cs).drop bearerSp.length).dropWhile
              (fun ch => !isWsChar ch)).length ≤ m := by
            have h1 := (List.IsSuffix.sublist (List.dropWhile_suffix
              (l := (c :: cs).drop bearerSp.length)
                (fun ch => !isWsChar ch))).length_le
            simp only [List.length_drop, List.length_cons] at h1 ⊢
            simp only [List.length_cons] at hm
            have hb : bearerSp.length = 7 := rfl
            omega
          rw [ih m _ hd hd']
        next =>
          have hc : cs.length ≤ n := by
            simp only [List.length_cons] at hs; omega
          have hc' : cs.length ≤ m := by
            simp only [List.length_cons] at hm; omega
          rw [ih m _ hc hc']

theorem bearerSweepSpec_nil : bearerSweepSpec [] = [] := rfl

theorem bearerSweepSpec_cons (c : Char) (cs : List Char) :
    bearerSweepSpec (c :: cs) =
      if bearerSp <+: (c :: cs) then
        bearerSp ++ redactedStr ++
          bearerSweepSpec (((c :: cs).drop bearerSp.length).dropWhile
            (fun ch => !isWsChar ch))
      else c :: bearerSweepSpec cs := by
  show bearerSweepSpecF (c :: cs).length (c :: cs) = _
  rw [List.length_cons, bearerSweepSpecF]
  split
  next =>
    congr 1
    apply bearerSweepSpecF_eq_of_le
    · have h1 := (List.IsSuffix.sublist (List.dropWhile_suffix
        (l := (c :: cs).drop bearerSp.length)
          (fun ch => !isWsChar ch))).length_le
      simp only [List.length_drop, List.length_cons] at h1 ⊢
      have hb : bearerSp.length = 7 := rfl
      omega
    · exact Nat.le_refl _
  next => rfl

/-! ### Infix decomposition lemmas -/

/-- An infix of a concatenation lies in the left part, in the right part,
or straddles the junction. -/
theorem isInfix_append_cases {K a b : List Char} (h : K <:+: a ++ b) :
    K <:+: a ∨ K <:+: b ∨
      ∃ k1 k2, K = k1 ++ k2 ∧ k1 ≠ [] ∧ k2 ≠ [] ∧ k1 <:+ a ∧ k2 <+: b := by
  induction a with
  | nil =>
    right; left; simpa using h
  | cons x a ih =>
    rw [List.cons_append] at h
    rcases List.infix_cons_iff.mp h with hpre | hinf
    · cases K with
      | nil => left; exact List.nil_infix
      | cons y K' =>
        have hy : y = x := (List.cons_prefix_cons.mp hpre).1
        have hK' : K' <+: a ++ b := (List.cons_prefix_cons.mp hpre).2
        subst hy
        by_cases hlen : K'.length ≤ a.length
        · left
          exact (List.cons_prefix_cons.mpr
            ⟨rfl, (List.isPrefix_append_of_length hlen).mp hK'⟩).isInfix
        · obtain ⟨t, ht⟩ := hK'
          rcases List.append_eq_append_iff.mp ht with ⟨a', ha', _⟩ | ⟨c', hc', hb'⟩
          · exact absurd (ha' ▸ by simp) hlen
          · right; right
            refine ⟨y :: a, c', by simp [hc'], by simp, ?_, List.suffix_refl _, ⟨t, hb'.symm⟩⟩
            have : 0 < c'.length := by
              have := congrArg List.length hc'
              simp only [List.length_append] at this
              omega
            exact List.length_pos.mp this
    · rcases ih hinf with h1 | h2 | ⟨k1, k2, hk, h1ne, h2ne, hs1, hp2⟩
      · left; exact List.infix_cons h1
      · right; left; exact h2
      · right; right
        exact ⟨k1, k2, hk, h1ne, h2ne, hs1.trans (List.suffix_cons x a), hp2⟩

/-- A non-empty suffix of the placeholder ends in `']'`. -/
theorem mem_suffix_redactedStr {k1 : List Char} (hne : k1 ≠ [])
    (h : k1 <:+ redactedStr) : ']' ∈ k1 := by
  obtain ⟨t, ht⟩ := h
  have h1 : (t ++ k1).getLast? = redactedStr.getLast? := by rw [ht]
  rw [List.getLast?_append_of_ne_nil t hne] at h1
  have h2 : redactedStr.getLast? = some ']' := by decide
  rw [h2] at h1
  obtain ⟨hh, heq⟩ := List.mem_getLast?_eq_getLast (by rw [h1]; rfl)
  exact heq ▸ List.getLast_mem hh

/-- A non-empty prefix of the placeholder followed by anything starts
with `'['`. -/
theorem mem_prefix_redactedStr_append {k2 t : List Char} (hne : k2 ≠ [])
    (h : k2 <+: redactedStr ++ t) : '[' ∈ k2 := by
  cases k2 with
  | nil => exact absurd rfl hne
  | cons c k2' =>
    obtain ⟨u, hu⟩ := h
    have hR : redactedStr ++ t = '[' :: ("REDACTED]".data ++ t) := rfl
    rw [hR, List.cons_append] at hu
    have hc : c = '[' := (List.cons.injEq _ _ _ _ ▸ hu).1
    exact hc ▸ List.mem_cons_self c k2'

/-- Gluing: a bracket-free `K` that is absent from `a`, from the
placeholder and from `T` is absent from `a ++ (placeholder ++ T)`. -/
theorem not_infix_glue {K a T : List Char} (hl : '[' ∉ K) (hr : ']' ∉ K)
    (hnR : ¬ K <:+: redactedStr) (ha : ¬ K <:+: a) (hT : ¬ K <:+: T) :
    ¬ K <:+: a ++ (redactedStr ++ T) := by
  intro h
  rcases isInfix_append_cases h with h1 | h2 | ⟨k1, k2, hk, h1ne, h2ne, _, hp2⟩
  · exact ha h1
  · rcases isInfix_append_cases h2 with h3 | h4 | ⟨k1, k2, hk, h1ne, h2ne, hs1, _⟩
    · exact hnR h3
    · exact hT h4
    · exact hr (hk ▸ List.mem_append_left k2 (mem_suffix_redactedStr h1ne hs1))
  · exact hl (hk ▸ List.mem_append_right k1 (mem_prefix_redactedStr_append h2ne hp2))

/-! ### Structure of `replaceAll`, `splitOnSep` and `joinSep` -/

theorem joinSep_pair (sep p q : List Char) (ps : List (List Char)) :
    joinSep sep (p :: q :: ps) = p ++ sep ++ joinSep sep (q :: ps) := rfl

theorem joinSep_cons_head (sep : List Char) (c : Char) (p : List Char)
    (ps : List (List Char)) :
    joinSep sep ((c :: p) :: ps) = c :: joinSep sep (p :: ps) := by
  cases ps with
  | nil => rfl
  | cons q ps => rfl

theorem joinSep_append_head (sep x y : List Char) (ps : List (List Char)) :
    joinSep sep ((x ++ y) :: ps) = x ++ joinSep sep (y :: ps) := by
  cases ps with
  | nil => rfl
  | cons q ps => simp [joinSep_pair, List.append_assoc]

theorem joinSep_head_prefix (sep p : List Char) (ps : List (List Char)) :
    p <+: joinSep sep (p :: ps) := by
  cases ps with
  | nil => exact List.prefix_refl _
  | cons q ps =>
    rw [joinSep_pair, List.append_assoc]
    exact List.prefix_append _ _

theorem joinSep_suffix_mono (sep x y : List Char) (ps : List (List Char))
    (h : x <:+ y) : joinSep sep (x :: ps) <:+ joinSep sep (y :: ps) := by
  obtain ⟨t, rfl⟩ := h
  rw [joinSep_append_head]
  exact List.suffix_append t _

/-- Leftmost-scanning structure of `replaceAll`: the output is the
pattern-free segments of the input joined by the replacement, and the head
segment is a prefix of the input. -/
theorem replaceAll_structure (K rep : List Char) (hK : K ≠ []) :
    ∀ n s, List.length s ≤ n →
      ∃ p ps, replaceAll K rep s = joinSep rep (p :: ps) ∧
        (∀ q ∈ p :: ps, ¬ K <:+: q) ∧ p <+: s := by
  intro n
  induction n with
  | zero =>
    intro s hs
    have : s = [] := List.length_eq_zero.mp (Nat.le_zero.mp hs)
    subst this
    refine ⟨[], [], rfl, ?_, List.nil_prefix⟩
    intro q hq
    simp only [List.mem_singleton] at hq
    subst hq
    exact fun hinf => hK ( List.infix_nil.mp hinf)
  | succ n ih =>
    intro s hs
    cases s with
    | nil =>
      refine ⟨[], [], rfl, ?_, List.nil_prefix⟩
      intro q hq
      simp only [List.mem_singleton] at hq
      subst hq
      exact fun hinf => hK ( List.infix_nil.mp hinf)
    | cons c cs =>
      rw [replaceAll_cons]
      by_cases hp : K <+: (c :: cs)
      · rw [if_pos ⟨hK, hp⟩]
        have hlen : ((c :: cs).drop K.length).length ≤ n := by
          have := List.length_pos.mpr hK
          simp only [List.length_drop, List.length_cons]
          simp only [List.length_cons] at hs
          omega
        obtain ⟨p, ps, heq, hfree, _⟩ := ih _ hlen
        refine ⟨[], p :: ps, ?_, ?_, List.nil_prefix⟩
        · rw [heq]; rfl
        · intro q hq
          rcases List.mem_cons.mp hq with hq | hq
          · subst hq; exact fun hinf => hK ( List.infix_nil.mp hinf)
          · exact hfree q hq
      · rw [if_neg (fun hcont => hp hcont.2)]
        have hlen : cs.length ≤ n := by
          simp only [List.length_cons] at hs; omega
        obtain ⟨p, ps, heq, hfree, hpre⟩ := ih _ hlen
        refine ⟨c :: p, ps, ?_, ?_, List.cons_prefix_cons.mpr ⟨rfl, hpre⟩⟩
        · rw [heq, joinSep_cons_head]
        · intro q hq
          rcases List.mem_cons.mp hq with hq | hq
          · subst hq
            intro hinf
            rcases List.infix_cons_iff.mp hinf with hpre' | hinf'
            · exact hp (hpre'.trans (List.cons_prefix_cons.mpr ⟨rfl, hpre⟩))
            · exact hfree p (List.mem_cons_self _ _) hinf'
          · exact hfree q (List.mem_cons.mpr (Or.inr hq))

/-- A bracket-free pattern absent from every piece is absent from the
pieces joined with the placeholder. -/
theorem not_infix_joinSep_redacted {K : List Char} (hl : '[' ∉ K) (hr : ']' ∉ K)
    (hnR : ¬ K <:+: redactedStr) :
    ∀ ps p, (∀ q ∈ p :: ps, ¬ K <:+: q) →
      ¬ K <:+: joinSep redactedStr (p :: ps) := by
  intro ps
  induction ps with
  | nil => intro p hfree; exact hfree p (List.mem_cons_self _ _)
  | cons q ps ih =>
    intro p hfree
    rw [joinSep_pair, List.append_assoc]
    exact not_infix_glue hl hr hnR (hfree p (List.mem_cons_self _ _))
      (ih q (fun r hr' => hfree r (List.mem_cons.mpr (Or.inr hr'))))

/-- After `strings.ReplaceAll(s, K, "[REDACTED]")` the key `K` no longer
occurs anywhere, provided `K` avoids the bracket characters and is not
itself a piece of the placeholder. -/
theorem replaceAll_no_occurrence {K : List Char} (hK : K ≠ []) (hl : '[' ∉ K)
    (hr : ']' ∉ K) (hnR : ¬ K <:+: redactedStr) (s : List Char) :
    ¬ K <:+: replaceAll K redactedStr s := by
  obtain ⟨p, ps, heq, hfree, _⟩ :=
    replaceAll_structure K redactedStr hK s.length s (Nat.le_refl _)
  rw [heq]
  exact not_infix_joinSep_redacted hl hr hnR ps p hfree

/-- `strings.ReplaceAll` is the identity when the pattern does not occur. -/
theorem replaceAll_eq_self {pat rep : List Char} :
    ∀ n s, List.length s ≤ n → ¬ pat <:+: s → replaceAll pat rep s = s := by
  intro n
  induction n with
  | zero =>
    intro s hs _
    have : s = [] := List.length_eq_zero.mp (Nat.le_zero.mp hs)
    subst this; rfl
  | succ n ih =>
    intro s hs hno
    cases s with
    | nil => rfl
    | cons c cs =>
      rw [replaceAll_cons, if_neg (fun hcont => hno hcont.2.isInfix)]
      have hlen : cs.length ≤ n := by
        simp only [List.length_cons] at hs; omega
      rw [ih cs hlen (fun hi => hno ( List.infix_cons hi))]

/-- Structure of `strings.Split`: the pieces are separator-free, they join
back to the input, and no separator occurrence starts inside the head
piece. -/
theorem splitOnSep_structure (sep : List Char) (hsep : sep ≠ []) :
    ∀ n s, List.length s ≤ n →
      ∃ p ps, splitOnSep sep s = p :: ps ∧
        joinSep sep (p :: ps) = s ∧
        (∀ q ∈ p :: ps, ¬ sep <:+: q) ∧
        (∀ i, i < p.length → ¬ sep <+: s.drop i) := by
  intro n
  induction n with
  | zero =>
    intro s hs
    have : s = [] := List.length_eq_zero.mp (Nat.le_zero.mp hs)
    subst this
    refine ⟨[], [], rfl, rfl, ?_, by intro i hi; simp at hi⟩
    intro q hq
    simp only [List.mem_singleton] at hq
    subst hq
    exact fun hinf => hsep ( List.infix_nil.mp hinf)
  | succ n ih =>
    intro s hs
    cases s with
    | nil =>
      refine ⟨[], [], rfl, rfl, ?_, by intro i hi; simp at hi⟩
      intro q hq
      simp only [List.mem_singleton] at hq
      subst hq
      exact fun hinf => hsep ( List.infix_nil.mp hinf)
    | cons c cs =>
      rw [splitOnSep_cons]
      by_cases hp : sep <+: (c :: cs)
      · rw [if_pos ⟨hsep, hp⟩]
        have hlen : ((c :: cs).drop sep.length).length ≤ n := by
          have := List.length_pos.mpr hsep
          simp only [List.length_drop, List.length_cons]
          simp only [List.length_cons] at hs
          omega
        obtain ⟨p, ps, hsplit, hjoin, hfree, _⟩ := ih _ hlen
        rw [hsplit]
        refine ⟨[], p :: ps, rfl, ?_, ?_, by intro i hi; simp at hi⟩
        · obtain ⟨t', ht'⟩ := hp
          have hdrop : (c :: cs).drop sep.length = t' := by
            rw [← ht']; exact List.drop_left sep t'
          rw [joinSep_pair]
          rw [hdrop] at hjoin
          simp only [List.nil_append]
          rw [hjoin, ht']
        · intro q hq
          rcases List.mem_cons.mp hq with hq | hq
          · subst hq; exact fun hinf => hsep ( List.infix_nil.mp hinf)
          · exact hfree q hq
      · rw [if_neg (fun hcont => hp hcont.2)]
        have hlen : cs.length ≤ n := by
          simp only [List.length_cons] at hs; omega
        obtain ⟨p, ps, hsplit, hjoin, hfree, hfo⟩ := ih _ hlen
        rw [hsplit]
        refine ⟨c :: p, ps, rfl, ?_, ?_, ?_⟩
        · rw [joinSep_cons_head, hjoin]
        · intro q hq
          rcases List.mem_cons.mp hq with hq | hq
          · subst hq
            intro hinf
            rcases List.infix_cons_iff.mp hinf with hpre' | hinf'
            · have hppre : p <+: cs := by
                rw [← hjoin]; exact joinSep_head_prefix sep p ps
              exact hp (hpre'.trans (List.cons_prefix_cons.mpr ⟨rfl, hppre⟩))
            · exact hfree p (List.mem_cons_self _ _) hinf'
          · exact hfree q (List.mem_cons.mpr (Or.inr hq))
        · intro i hi
          cases i with
          | zero => simpa using hp
          | succ i =>
            simp only [List.length_cons] at hi
            exact hfo i (by omega)

/-- The sweep body in closed form: the redacted part is the placeholder
followed by everything from the first whitespace character on. -/
theorem redactToken_eq (q : List Char) :
    redactToken q = redactedStr ++ q.dropWhile (fun c => !isWsChar c) := by
  induction q with
  | nil => simp [redactToken]
  | cons c cs ih =>
    by_cases hc : isWsChar c
    · simp [redactToken, List.findIdx?_cons, hc]
    · rw [List.dropWhile_cons_of_pos (by simp [hc])] at *
      unfold redactToken
      rw [List.findIdx?_cons, if_neg (by simp [hc]), List.findIdx?_succ]
      unfold redactToken at ih
      cases hfi : cs.findIdx? isWsChar with
      | none =>
        rw [hfi] at ih
        simp only [Option.map_none'] at *
        exact ih
      | some i =>
        rw [hfi] at ih
        simp only [Option.map_some'] at *
        rw [List.drop_succ_cons]
        exact ih

/-! ### The redactor never reintroduces the key -/

theorem joinSep_map_redactToken_no_K {K : List Char} (hl : '[' ∉ K) (hr : ']' ∉ K)
    (hnR : ¬ K <:+: redactedStr) :
    ∀ ps p, ¬ K <:+: joinSep bearerSp (p :: ps) →
      ¬ K <:+: joinSep bearerSp (p :: ps.map redactToken) := by
  intro ps
  induction ps with
  | nil => intro p h; exact h
  | cons q ps ih =>
    intro p hS
    rw [List.map_cons, joinSep_pair, redactToken_eq, joinSep_append_head]
    apply not_infix_glue hl hr hnR
    · intro hK
      apply hS
      apply hK.trans
      rw [joinSep_pair]
      exact ( List.prefix_append (p ++ bearerSp) _).isInfix
    · apply ih
      intro hK
      apply hS
      apply hK.trans
      have h1 : joinSep bearerSp (q.dropWhile (fun c => !isWsChar c) :: ps) <:+
          joinSep bearerSp (q :: ps) :=
        joinSep_suffix_mono _ _ _ _ (List.dropWhile_suffix _)
      have h2 : joinSep bearerSp (q :: ps) <:+ joinSep bearerSp (p :: q :: ps) := by
        rw [joinSep_pair, List.append_assoc]
        exact (List.suffix_append bearerSp _).trans (List.suffix_append p _)
      exact (h1.trans h2).isInfix

theorem sweepBearer_no_K {K : List Char} (hl : '[' ∉ K) (hr : ']' ∉ K)
    (hnR : ¬ K <:+: redactedStr) (s : List Char) (hs : ¬ K <:+: s) :
    ¬ K <:+: sweepBearer s := by
  obtain ⟨p, ps, hsplit, hjoin, _, _⟩ :=
    splitOnSep_structure bearerSp (by decide) s.length s (Nat.le_refl _)
  unfold sweepBearer
  rw [hsplit]
  exact joinSep_map_redactToken_no_K hl hr hnR ps p (by rw [hjoin]; exact hs)

/-- Core redaction theorem: for a non-empty key that avoids the bracket
characters and is not a piece of the placeholder, the output of
`maskSensitive` never contains the key as a contiguous substring. -/
theorem maskSensitive_no_key {K : List Char} (hK : K ≠ []) (hl : '[' ∉ K)
    (hr : ']' ∉ K) (hnR : ¬ K <:+: redactedStr) (s : List Char) :
    ¬ K <:+: maskSensitive K s := by
  have h1 : ¬ K <:+: replaceAll K redactedStr s :=
    replaceAll_no_occurrence hK hl hr hnR s
  have h2 : replaceAll (bearerSp ++ K) (bearerSp ++ redactedStr)
      (replaceAll K redactedStr s) = replaceAll K redactedStr s :=
    replaceAll_eq_self _ _ (Nat.le_refl _)
      (fun hBK => h1 (List.IsInfix.trans
        (show K <:+: bearerSp ++ K from ⟨bearerSp, [], by simp⟩) hBK))
  have key : ∀ t, ¬ K <:+: t →
      ¬ K <:+: (if bearerSp <:+: t then sweepBearer t else t) := by
    intro t ht
    by_cases hB : bearerSp <:+: t
    · rw [if_pos hB]; exact sweepBearer_no_K hl hr hnR t ht
    · rw [if_neg hB]; exact ht
  show ¬ K <:+: maskSensitive K s
  unfold maskSensitive
  simp only [if_pos hK, h2]
  exact key _ h1

/-! ### The spec-side scanner versus the split-based sweep (claim C8) -/

theorem bearerSweepSpec_eq_self :
    ∀ n s, List.length s ≤ n → ¬ bearerSp <:+: s → bearerSweepSpec s = s := by
  intro n
  induction n with
  | zero =>
    intro s hs _
    have : s = [] := List.length_eq_zero.mp (Nat.le_zero.mp hs)
    subst this; rfl
  | succ n ih =>
    intro s hs hno
    cases s with
    | nil => rfl
    | cons c cs =>
      rw [bearerSweepSpec_cons, if_neg (fun hcont => hno hcont.isInfix)]
      have hlen : cs.length ≤ n := by
        simp only [List.length_cons] at hs; omega
      rw [ih cs hlen (fun hi => hno ( List.infix_cons hi))]

/-- The scanner copies a match-free region, replaces the bearer token
after the first `"Bearer "` occurrence, and continues after the token. -/
theorem bearerSweepSpec_through :
    ∀ n (a t : List Char), a.length ≤ n →
      (∀ i, i < a.length → ¬ bearerSp <+: (a ++ bearerSp ++ t).drop i) →
      bearerSweepSpec (a ++ bearerSp ++ t) =
        a ++ bearerSp ++ redactedStr ++
          bearerSweepSpec (t.dropWhile (fun c => !isWsChar c)) := by
  intro n
  induction n with
  | zero =>
    intro a t ha _
    have : a = [] := List.length_eq_zero.mp (Nat.le_zero.mp ha)
    subst this
    simp only [List.nil_append]
    have hBt : bearerSp ++ t = 'B' :: ("earer ".data ++ t) := rfl
    rw [hBt, bearerSweepSpec_cons,
      if_pos (by rw [← hBt]; exact List.prefix_append bearerSp t)]
    rw [← hBt]
    rw [List.drop_left bearerSp t]
  | succ n ih =>
    intro a t ha hfo
    cases a with
    | nil =>
      simp only [List.nil_append]
      have hBt : bearerSp ++ t = 'B' :: ("earer ".data ++ t) := rfl
      rw [hBt, bearerSweepSpec_cons,
        if_pos (by rw [← hBt]; exact List.prefix_append bearerSp t)]
      rw [← hBt]
      rw [List.drop_left bearerSp t]
    | cons c a' =>
      have h0 : ¬ bearerSp <+: ((c :: a') ++ bearerSp ++ t) := by
        have := hfo 0 (by simp)
        simpa using this
      rw [List.cons_append, List.cons_append, bearerSweepSpec_cons,
        if_neg (by rw [← List.cons_append, ← List.cons_append]; exact h0)]
      have hlen : a'.length ≤ n := by
        simp only [List.length_cons] at ha; omega
      have hfo' : ∀ i, i < a'.length → ¬ bearerSp <+: (a' ++ bearerSp ++ t).drop i := by
        intro i hi
        have := hfo (i + 1) (by simp only [List.length_cons]; omega)
        simpa using this
      rw [ih a' t hlen hfo']
      simp [List.cons_append, List.append_assoc]

/-- Equivalence of the implementation and the spec-side redactor on texts
whose post-replacement form contains at most one `"Bearer "` occurrence,
for keys that cannot collide with the placeholder. -/
theorem maskSensitive_eq_redactSpecC8 (K s : List Char)
    (hvalid : K = [] ∨ ('[' ∉ K ∧ ']' ∉ K ∧ ¬ K <:+: redactedStr))
    (hcount : (splitOnSep bearerSp
      (if K ≠ [] then replaceAll K redactedStr s else s)).length ≤ 2) :
    maskSensitive K s = redactSpecC8 K s := by
  set s1 := if K ≠ [] then replaceAll K redactedStr s else s with hs1
  have hstage : (if K ≠ [] then
      replaceAll (bearerSp ++ K) (bearerSp ++ redactedStr)
        (replaceAll K redactedStr s) else s) = s1 := by
    by_cases hK : K = []
    · rw [if_neg (by simpa using hK), hs1, if_neg (by simpa using hK)]
    · rcases hvalid with h | ⟨hl, hr, hnR⟩
      · exact absurd h hK
      · have h1 : ¬ K <:+: replaceAll K redactedStr s :=
          replaceAll_no_occurrence hK hl hr hnR s
        rw [if_pos hK, hs1, if_pos hK]
        exact replaceAll_eq_self _ _ (Nat.le_refl _)
          (fun hBK => h1 (List.IsInfix.trans
            (show K <:+: bearerSp ++ K from ⟨bearerSp, [], by simp⟩) hBK))
  have hcode : maskSensitive K s =
      (if bearerSp <:+: s1 then sweepBearer s1 else s1) := by
    unfold maskSensitive
    simp only [hstage]
  have hspec : redactSpecC8 K s = bearerSweepSpec s1 := by
    unfold redactSpecC8
    rw [← hs1]
  rw [hcode, hspec]
  obtain ⟨p, ps, hsplit, hjoin, hfree, hfo⟩ :=
    splitOnSep_structure bearerSp (by decide) s1.length s1 (Nat.le_refl _)
  rw [hsplit] at hcount
  cases ps with
  | nil =>
    have hnoB : ¬ bearerSp <:+: s1 := by
      have : joinSep bearerSp [p] = s1 := hjoin
      rw [← this]
      exact hfree p (List.mem_cons_self _ _)
    rw [if_neg hnoB, bearerSweepSpec_eq_self s1.length s1 (Nat.le_refl _) hnoB]
  | cons q ps' =>
    cases ps' with
    | nil =>
      have hs1eq : s1 = p ++ bearerSp ++ q := by
        rw [← hjoin, joinSep_pair]; rfl
      have hB : bearerSp <:+: s1 := by
        rw [hs1eq]; exact ⟨p, q, rfl⟩
      rw [if_pos hB]
      have hsweep : sweepBearer s1 =
          p ++ bearerSp ++ (redactedStr ++ q.dropWhile (fun c => !isWsChar c)) := by
        unfold sweepBearer
        rw [hsplit]
        show joinSep bearerSp (p :: List.map redactToken [q]) = _
        rw [List.map_cons, List.map_nil, joinSep_pair, redactToken_eq]
        rfl
      have hfo' : ∀ i, i < p.length →
          ¬ bearerSp <+: (p ++ bearerSp ++ q).drop i := by
        intro i hi
        have := hfo i hi
        rw [hs1eq] at this
        exact this
      have hq : ¬ bearerSp <:+: q.dropWhile (fun c => !isWsChar c) := by
        intro hinf
        exact hfree q (by simp)
          (hinf.trans (List.dropWhile_suffix _).isInfix)
      rw [hsweep, hs1eq, bearerSweepSpec_through p.length p q (Nat.le_refl _) hfo',
        bearerSweepSpec_eq_self _ _ (Nat.le_refl _) hq]
      simp [List.append_assoc]
    | cons r ps'' => simp at hcount

/-! ### Header map lemmas and Director characterisations -/

theorem hGet_hSet_same : ∀ (h : List (String × List String)) k v,
    hGet (hSet h k v) k = v := by
  intro h k v
  induction h with
  | nil => simp [hSet, hGet]
  | cons kv t ih =>
    obtain ⟨k', vs⟩ := kv
    by_cases hk : k' = k
    · simp [hSet, hk, hGet]
    · simp [hSet, hk, hGet, ih]

theorem hGet_hSet_diff : ∀ (h : List (String × List String)) k k' v,
    k ≠ k' → hGet (hSet h k v) k' = hGet h k' := by
  intro h k k' v hne
  induction h with
  | nil => simp [hSet, hGet, hne]
  | cons kv t ih =>
    obtain ⟨k'', vs⟩ := kv
    by_cases hk : k'' = k
    · subst hk; simp [hSet, hGet, hne]
    · simp only [hSet, if_neg hk, hGet]
      by_cases hk' : k'' = k'
      · simp [hk']
      · simp [hk', ih]

/-- The header state after the `X-Forwarded-*` writes of the Director. -/
def xfHeaders (target : Url) (r : Request) : List (String × List String) :=
  hSet (hSet (if hHas r.headers "X-Forwarded-For" then
      hSet r.headers "X-Forwarded-For"
        (hGet r.headers "X-Forwarded-For" ++ ", " ++ r.remoteAddr)
    else hSet r.headers "X-Forwarded-For" r.remoteAddr)
    "X-Forwarded-Proto" target.scheme) "X-Forwarded-Host" target.host

/-- Closed form of the headers produced by the Director. -/
theorem director_headers_eq (target : Url) (apiKey : String)
    (preserveAuth verbose : Bool) (r : Request) :
    (director target apiKey preserveAuth verbose r).headers =
      if apiKey ≠ "" ∧
          ¬(preserveAuth = true ∧ hGet (xfHeaders target r) "Authorization" ≠ "") then
        hSet (xfHeaders target r) "Authorization"
          (if 7 ≤ apiKey.length ∧ apiKey.take 7 = "Bearer " then apiKey
           else "Bearer " ++ apiKey)
      else xfHeaders target r := by
  unfold director xfHeaders
  dsimp only
  split_ifs <;> rfl

theorem hGet_xfHeaders_auth (target : Url) (r : Request) :
    hGet (xfHeaders target r) "Authorization" = hGet r.headers "Authorization" := by
  unfold xfHeaders
  rw [hGet_hSet_diff _ _ _ _ (by decide), hGet_hSet_diff _ _ _ _ (by decide)]
  by_cases hx : hHas r.headers "X-Forwarded-For"
  · rw [if_pos hx, hGet_hSet_diff _ _ _ _ (by decide)]
  · rw [if_neg hx, hGet_hSet_diff _ _ _ _ (by decide)]

/-- Characterisation of the outbound `Authorization` header produced by
the Director. -/
theorem director_auth_char (target : Url) (apiKey : String)
    (preserveAuth verbose : Bool) (r : Request) :
    hGet (director target apiKey preserveAuth verbose r).headers "Authorization" =
      if apiKey ≠ "" ∧ ¬(preserveAuth = true ∧ hGet r.headers "Authorization" ≠ "") then
        (if 7 ≤ apiKey.length ∧ apiKey.take 7 = "Bearer " then apiKey
         else "Bearer " ++ apiKey)
      else hGet r.headers "Authorization" := by
  rw [director_headers_eq, hGet_xfHeaders_auth]
  by_cases hinj : apiKey ≠ "" ∧ ¬(preserveAuth = true ∧ hGet r.headers "Authorization" ≠ "")
  · rw [if_pos hinj, if_pos hinj, hGet_hSet_same]
  · rw [if_neg hinj, if_neg hinj, hGet_xfHeaders_auth]

/-- Characterisation of the `X-Forwarded-Proto` / `X-Forwarded-Host`
headers produced by the Director: both come from the target, because the
stock director has already rewritten `r.URL` and `r.Host` has been set to
the target before they are read. -/
theorem director_xf_char (target : Url) (apiKey : String)
    (preserveAuth verbose : Bool) (r : Request) :
    hGet (director target apiKey preserveAuth verbose r).headers "X-Forwarded-Proto" =
      target.scheme ∧
    hGet (director target apiKey preserveAuth verbose r).headers "X-Forwarded-Host" =
      target.host := by
  have e2 : hGet (xfHeaders target r) "X-Forwarded-Proto" = target.scheme := by
    unfold xfHeaders
    rw [hGet_hSet_diff _ _ _ _ (by decide), hGet_hSet_same]
  have e3 : hGet (xfHeaders target r) "X-Forwarded-Host" = target.host := by
    unfold xfHeaders
    rw [hGet_hSet_same]
  rw [director_headers_eq]
  by_cases hinj : apiKey ≠ "" ∧
      ¬(preserveAuth = true ∧ hGet (xfHeaders target r) "Authorization" ≠ "")
  · rw [if_pos hinj]
    exact ⟨by rw [hGet_hSet_diff _ _ _ _ (by decide), e2],
      by rw [hGet_hSet_diff _ _ _ _ (by decide), e3]⟩
  · rw [if_neg hinj]
    exact ⟨e2, e3⟩

/-! ### responseLogger: log-once analysis -/

/-- During the read phase, the `logged` flag tracks whether a read has
observed `io.EOF`, and the number of emitted records equals the number of
EOF-observing reads (because `Read` calls `log()` unconditionally on every
EOF). -/
def LoggerInv (st : LoggerSt) : Prop :=
  (st.logged = true ↔ 1 ≤ st.eofReads) ∧ st.logCount = st.eofReads

theorem loggerRead_inv {st : LoggerSt} (h : LoggerInv st) (k : Nat) :
    LoggerInv (loggerRead st k) := by
  obtain ⟨h1, h2⟩ := h
  unfold loggerRead
  by_cases he : st.remaining.isEmpty
  · rw [if_pos he]
    unfold loggerLog
    constructor
    · dsimp only; constructor
      · intro; omega
      · intro; rfl
    · dsimp only; omega
  · rw [if_neg he]
    dsimp only
    split_ifs with h1' h2' <;> exact ⟨h1, h2⟩

theorem loggerRead_closes (st : LoggerSt) (k : Nat) :
    (loggerRead st k).closes = st.closes := by
  unfold loggerRead
  dsimp only
  split_ifs <;> rfl

theorem loggerClose_logged (st : LoggerSt) : (loggerClose st).logged = true := by
  unfold loggerClose loggerLog
  by_cases hl : st.logged = false
  · rw [if_pos hl]
  · rw [if_neg hl]
    dsimp only
    revert hl
    cases h : st.logged <;> simp

theorem foldl_allCloses :
    ∀ (ops : List LogOp) (st : LoggerSt), allCloses ops = true → st.logged = true →
      List.foldl loggerStep st ops = { st with closes := st.closes + ops.length } := by
  intro ops
  induction ops with
  | nil => intro st _ _; simp
  | cons op t ih =>
    intro st hops hlog
    cases op with
    | read k => simp [allCloses] at hops
    | close =>
      have hstep : loggerStep st LogOp.close = { st with closes := st.closes + 1 } := by
        unfold loggerStep loggerClose loggerLog
        rw [if_neg (by rw [hlog]; simp)]
      rw [List.foldl_cons, hstep, ih _ hops (by rw [← hstep]; exact loggerClose_logged st)]
      simp only [List.length_cons]
      congr 1
      omega

theorem runLogger_count :
    ∀ (ops : List LogOp) (st : LoggerSt), readsThenCloses ops = true →
      LoggerInv st → st.closes = 0 →
      (List.foldl loggerStep st ops).logCount =
        (List.foldl loggerStep st ops).eofReads +
          (if 1 ≤ (List.foldl loggerStep st ops).closes ∧
              (List.foldl loggerStep st ops).eofReads = 0 then 1 else 0) := by
  intro ops
  induction ops with
  | nil =>
    intro st _ hinv hcl
    simp only [List.foldl_nil, hcl]
    rw [if_neg (by omega)]
    simp [hinv.2]
  | cons op t ih =>
    intro st hwf hinv hcl
    cases op with
    | read k =>
      rw [List.foldl_cons]
      exact ih _ hwf (loggerRead_inv hinv k)
        (by rw [show loggerStep st (LogOp.read k) = loggerRead st k from rfl,
          loggerRead_closes, hcl])
    | close =>
      obtain ⟨h1, h2⟩ := hinv
      have hac : allCloses t = true := hwf
      rw [List.foldl_cons,
        show loggerStep st LogOp.close = loggerClose st from rfl,
        foldl_allCloses t _ hac (loggerClose_logged st)]
      show (loggerClose st).logCount = (loggerClose st).eofReads + _
      unfold loggerClose loggerLog
      by_cases hl : st.logged = false
      · have he : st.eofReads = 0 := by
          rcases Nat.eq_zero_or_pos st.eofReads with h | h
          · exact h
          · exact absurd (h1.mpr h) (by rw [hl]; simp)
        rw [if_pos hl]
        dsimp only
        rw [he, if_pos (by constructor <;> omega)]
        omega
      · have he : 1 ≤ st.eofReads := h1.mp (by revert hl; cases st.logged <;> simp)
        rw [if_neg hl]
        dsimp only
        rw [if_neg (by omega)]
        omega

/-! ### Remaining helper lemmas -/

theorem captureTrunc_of_le {b : List Char} (h : b.length ≤ maxLogBody) :
    captureTrunc b = b := by
  unfold captureTrunc
  rw [List.take_of_length_le (by omega)]
  rw [if_neg (by omega)]

theorem captureTrunc_replicate :
    captureTrunc (List.replicate (maxLogBody + 1) 'a') =
      List.replicate maxLogBody 'a' := by
  unfold captureTrunc
  rw [List.take_replicate]
  simp only [Nat.min_self, List.length_replicate]
  rw [if_pos (by omega), List.take_replicate]
  congr 1

theorem director_body_eq (target : Url) (apiKey : String)
    (preserveAuth verbose : Bool) (r : Request) :
    (director target apiKey preserveAuth verbose r).body =
      if verbose then Option.map captureTrunc r.body else r.body := by
  unfold director
  dsimp only
  split_ifs <;> rfl

theorem sanitizeHeaders_auth :
    ∀ hdrs, ∀ kv ∈ sanitizeHeaders hdrs, kv.1 = "Authorization" →
      kv.2 = ["Bearer [REDACTED]"] := by
  intro hdrs
  induction hdrs with
  | nil => intro kv hkv; simp [sanitizeHeaders] at hkv
  | cons h t ih =>
    obtain ⟨k, vs⟩ := h
    intro kv hkv hk
    simp only [sanitizeHeaders] at hkv
    rcases List.mem_cons.mp hkv with hkv | hkv
    · by_cases hka : k = "Authorization"
      · rw [hkv, if_pos hka]
      · rw [if_neg hka] at hkv
        rw [hkv] at hk
        exact absurd hk hka
    · exact ih kv hkv hk

/-! ### Claims -/

/-- C2: for every request, if a non-empty API key is configured and either
preserve-auth is off or the client supplied no `Authorization` header, the
outbound `Authorization` header is exactly `Bearer <key>` (the key verbatim
when it already starts with the 7-character prefix `"Bearer "`), regardless
of any client-supplied value; if preserve-auth is on and the client
supplied an `Authorization` header, it passes through unchanged. -/
theorem C2_authorization_injection (target : Url) (apiKey : String)
    (preserveAuth verbose : Bool) (r : Request) (hK : apiKey ≠ "") :
    ((preserveAuth = false ∨ hGet r.headers "Authorization" = "") →
      hGet (director target apiKey preserveAuth verbose r).headers "Authorization" =
        (if 7 ≤ apiKey.length ∧ apiKey.take 7 = "Bearer " then apiKey
         else "Bearer " ++ apiKey)) ∧
    ((preserveAuth = true ∧ hGet r.headers "Authorization" ≠ "") →
      hGet (director target apiKey preserveAuth verbose r).headers "Authorization" =
        hGet r.headers "Authorization") := by
  constructor
  · intro hcase
    rw [director_auth_char, if_pos]
    refine ⟨hK, ?_⟩
    rcases hcase with hpa | hauth
    · rintro ⟨hpa', _⟩; rw [hpa] at hpa'; exact Bool.false_ne_true hpa'
    · rintro ⟨_, hauth'⟩; exact hauth' hauth
  · intro hcase
    rw [director_auth_char, if_neg]
    intro hcont
    exact hcont.2 hcase

/-- C2 witness: concrete run of the injection case and the preserve case. -/
theorem C2_authorization_injection_witness :
    (("sk-test" : String) ≠ "") ∧
    (((false = false ∨ hGet [("Authorization", ["Bearer client"])] "Authorization" = "") →
      hGet (director { scheme := "https", host := "ollama.com" } "sk-test" false false
        { urlScheme := "http", urlHost := "c", host := "c", remoteAddr := "1.2.3.4:5",
          headers := [("Authorization", ["Bearer client"])], body := none }).headers
        "Authorization" =
        (if 7 ≤ ("sk-test" : String).length ∧ ("sk-test" : String).take 7 = "Bearer "
         then "sk-test" else "Bearer " ++ "sk-test")) ∧
     ((false = true ∧ hGet [("Authorization", ["Bearer client"])] "Authorization" ≠ "") →
      hGet (director { scheme := "https", host := "ollama.com" } "sk-test" false false
        { urlScheme := "http", urlHost := "c", host := "c", remoteAddr := "1.2.3.4:5",
          headers := [("Authorization", ["Bearer client"])], body := none }).headers
        "Authorization" =
        hGet [("Authorization", ["Bearer client"])] "Authorization")) :=
  ⟨by decide,
    C2_authorization_injection { scheme := "https", host := "ollama.com" } "sk-test"
      false false
      { urlScheme := "http", urlHost := "c", host := "c", remoteAddr := "1.2.3.4:5",
        headers := [("Authorization", ["Bearer client"])], body := none }
      (by decide)⟩

/-- C7 (counterexample): the code sets `X-Forwarded-Proto`/`X-Forwarded-Host`
to the upstream target's scheme and host, not the original inbound ones. -/
theorem C7_counterexample :
    hGet (director { scheme := "https", host := "ollama.com" } "" false false
      { urlScheme := "http", urlHost := "localhost:11434", host := "localhost:11434",
        remoteAddr := "127.0.0.1:50000", headers := [], body := none }).headers
      "X-Forwarded-Proto" = "https" ∧
    ("https" : String) ≠ "http" ∧
    hGet (director { scheme := "https", host := "ollama.com" } "" false false
      { urlScheme := "http", urlHost := "localhost:11434", host := "localhost:11434",
        remoteAddr := "127.0.0.1:50000", headers := [], body := none }).headers
      "X-Forwarded-Host" = "ollama.com" ∧
    ("ollama.com" : String) ≠ "localhost:11434" := by
  refine ⟨?_, by decide, ?_, by decide⟩
  · exact (director_xf_char _ _ _ _ _).1
  · exact (director_xf_char _ _ _ _ _).2

/-- C7 (amended): for every inbound request, the rewritten outbound request
carries `X-Forwarded-Proto` equal to the configured upstream target's
scheme and `X-Forwarded-Host` equal to the target's host, because the
stock director has already rewritten `r.URL` and `r.Host = target.Host`
runs before these headers are read. -/
theorem C7_forwarded_headers (target : Url) (apiKey : String)
    (preserveAuth verbose : Bool) (r : Request) :
    hGet (director target apiKey preserveAuth verbose r).headers "X-Forwarded-Proto" =
      target.scheme ∧
    hGet (director target apiKey preserveAuth verbose r).headers "X-Forwarded-Host" =
      target.host :=
  director_xf_char target apiKey preserveAuth verbose r

/-- C6 (counterexample): in verbose mode a request body one byte longer
than the 1 MiB log cap is truncated before being forwarded upstream. -/
theorem C6_counterexample :
    (director { scheme := "http", host := "up" } "" false true
      { urlScheme := "http", urlHost := "c", host := "c", remoteAddr := "1.2.3.4:5",
        headers := [], body := some (List.replicate (maxLogBody + 1) 'a') }).body ≠
      some (List.replicate (maxLogBody + 1) 'a') := by
  rw [director_body_eq, if_pos rfl]
  simp only [Option.map_some', captureTrunc_replicate]
  intro h
  have h2 := congrArg (fun o => (Option.getD o []).length) h
  simp only [Option.getD_some, List.length_replicate] at h2
  omega

/-- C6 (amended): in verbose mode the body stream forwarded upstream after
diagnostic capture equals the client-supplied body whenever that body is
at most `maxLogBody` (1 MiB) long; larger bodies are truncated to the cap
by the capture (`io.ReadAll(io.LimitReader(...))` plus the `b[:maxLogBody]`
slice), in every snapshot of the Director. -/
theorem C6_forwarded_body (target : Url) (apiKey : String)
    (preserveAuth verbose : Bool) (r : Request) (b : List Char)
    (hb : r.body = some b) (hlen : b.length ≤ maxLogBody) :
    (director target apiKey preserveAuth verbose r).body = some b := by
  rw [director_body_eq, hb]
  cases verbose
  · rfl
  · simp [captureTrunc_of_le hlen]

/-- C6 witness. -/
theorem C6_forwarded_body_witness :
    (({ urlScheme := "http", urlHost := "c", host := "c", remoteAddr := "1.2.3.4:5",
        headers := [], body := some "hello".data } : Request).body = some "hello".data ∧
      ("hello".data).length ≤ maxLogBody) ∧
    (director { scheme := "http", host := "up" } "" false true
      { urlScheme := "http", urlHost := "c", host := "c", remoteAddr := "1.2.3.4:5",
        headers := [], body := some "hello".data }).body = some "hello".data :=
  ⟨⟨rfl, by decide⟩,
    C6_forwarded_body { scheme := "http", host := "up" } "" false true
      { urlScheme := "http", urlHost := "c", host := "c", remoteAddr := "1.2.3.4:5",
        headers := [], body := some "hello".data } "hello".data rfl (by decide)⟩

/-- C1 (counterexample): the verbose header dump replaces only the
`Authorization` entry; a configured key occurring in a different header is
written to the log record in cleartext. -/
theorem C1_counterexample :
    "sk-secret".data <:+:
      requestLogDump "sk-secret".data [("X-Api-Key", ["sk-secret"])]
        (some "hello".data) := by decide

/-- C1 (amended): for every non-empty API key that avoids the characters
`'['` and `']'` and is not a substring of the placeholder, no output of
the redactor (request/response body dumps and the error/chunked header and
body snippets all pass through `maskSensitive`) contains the key as a
contiguous substring, and the verbose header sanitisation always replaces
the `Authorization` entry with the fixed marker; the key can however still
leak through the verbose header dump when it occurs in a header other than
`Authorization`, which is copied verbatim. -/
theorem C1_no_key_in_redacted_output (K s : List Char)
    (hdrs : List (String × List String)) (hK : K ≠ []) (hl : '[' ∉ K)
    (hr : ']' ∉ K) (hnR : ¬ K <:+: redactedStr) :
    (¬ K <:+: maskSensitive K s) ∧
    (∀ kv ∈ sanitizeHeaders hdrs, kv.1 = "Authorization" →
      kv.2 = ["Bearer [REDACTED]"]) :=
  ⟨maskSensitive_no_key hK hl hr hnR s, sanitizeHeaders_auth hdrs⟩

/-- C1 witness. -/
theorem C1_no_key_in_redacted_output_witness :
    (("sk-secret".data : List Char) ≠ [] ∧ '[' ∉ "sk-secret".data ∧
      ']' ∉ "sk-secret".data ∧ ¬ "sk-secret".data <:+: redactedStr) ∧
    ((¬ "sk-secret".data <:+:
        maskSensitive "sk-secret".data "key=sk-secret Bearer sk-secret end".data) ∧
      (∀ kv ∈ sanitizeHeaders [("Authorization", ["Bearer sk-secret"])],
        kv.1 = "Authorization" → kv.2 = ["Bearer [REDACTED]"])) :=
  ⟨by decide,
    C1_no_key_in_redacted_output "sk-secret".data
      "key=sk-secret Bearer sk-secret end".data
      [("Authorization", ["Bearer sk-secret"])]
      (by decide) (by decide) (by decide) (by decide)⟩

/-- C3: in the `internal/proxy/proxy.go` snapshot, verbose capture
truncates a response body one byte longer than the 1 MiB cap before it is
delivered to the client, contradicting the byte-identity invariant; the
`part_001` snapshot (error/chunked capture via `io.MultiReader` plus the
version patch) delivers the same body byte-identically. -/
theorem C3_truncation_eval :
    (modifyResponseEager true
        { hasRequest := true, reqPath := "/api/tags", statusCode := 200,
          contentTypeHdr := "text/plain",
          body := some (List.replicate (maxLogBody + 1) 'a'),
          transferEncoding := [], teHdr := none, contentLengthHdr := none,
          contentLength := ((maxLogBody : Int) + 1) }).body ≠
      some (List.replicate (maxLogBody + 1) 'a') ∧
    (modifyResponseFull (fun _ => none) ""
        { hasRequest := true, reqPath := "/api/tags", statusCode := 200,
          contentTypeHdr := "text/plain",
          body := some (List.replicate (maxLogBody + 1) 'a'),
          transferEncoding := [], teHdr := none, contentLengthHdr := none,
          contentLength := ((maxLogBody : Int) + 1) }).body =
      some (List.replicate (maxLogBody + 1) 'a') := by
  constructor
  · show some (captureTrunc (List.replicate (maxLogBody + 1) 'a')) ≠ _
    rw [captureTrunc_replicate]
    intro h
    have h2 := congrArg (fun o => (Option.getD o []).length) h
    simp only [Option.getD_some, List.length_replicate] at h2
    omega
  · show (versionPatchFull (fun _ => none) ""
        { hasRequest := true, reqPath := "/api/tags", statusCode := 200,
          contentTypeHdr := "text/plain",
          body := some (List.replicate (maxLogBody + 1) 'a'),
          transferEncoding := [], teHdr := none, contentLengthHdr := none,
          contentLength := ((maxLogBody : Int) + 1) }).body =
      some (List.replicate (maxLogBody + 1) 'a')
    unfold versionPatchFull
    rw [if_neg (by decide)]

/-- C4: for every `/api/version` response with JSON content type whose body
unmarshals to an object with a string `version` field: when the field is
`"0.0.0"` or `"0.0.0.0"` the delivered body is the re-marshalled object
with `version` set to the configured fallback (default `"0.15.2"`) and
`Content-Length` recomputed; any other string passes the body through
unchanged. -/
theorem C4_version_patch (parse : List Char → Option (List (String × JVal)))
    (fallback : String) (r : Resp) (m : List (String × JVal)) (v : String)
    (b : List Char) (hreq : r.hasRequest = true)
    (hpath : "/api/version".data <:+ r.reqPath.data)
    (hct : "application/json".data <:+: r.contentTypeHdr.data)
    (hb : r.body = some b) (hm : parse b = some m)
    (hv : List.lookup "version" m = some (JVal.jstr v)) :
    ((v = "0.0.0" ∨ v = "0.0.0.0") →
      (versionPatchFull parse fallback r).body =
        some (marshal (JVal.jobj (setKey m "version"
          (JVal.jstr (if fallback = "" then "0.15.2" else fallback))))) ∧
      (versionPatchFull parse fallback r).contentLengthHdr =
        some (toString (marshal (JVal.jobj (setKey m "version"
          (JVal.jstr (if fallback = "" then "0.15.2" else fallback))))).length) ∧
      (versionPatchFull parse fallback r).contentLength =
        ((marshal (JVal.jobj (setKey m "version"
          (JVal.jstr (if fallback = "" then "0.15.2" else fallback))))).length : Int)) ∧
    (¬(v = "0.0.0" ∨ v = "0.0.0.0") →
      (versionPatchFull parse fallback r).body = some b) := by
  have hmain : versionPatchFull parse fallback r =
      (if v = "0.0.0" ∨ v = "0.0.0.0" then
        { r with
          body := some (marshal (JVal.jobj (setKey m "version"
            (JVal.jstr (if fallback = "" then "0.15.2" else fallback))))),
          contentLength := ((marshal (JVal.jobj (setKey m "version"
            (JVal.jstr (if fallback = "" then "0.15.2" else fallback))))).length : Int),
          contentLengthHdr := some (toString (marshal (JVal.jobj (setKey m "version"
            (JVal.jstr (if fallback = "" then "0.15.2" else fallback))))).length),
          teHdr := none, transferEncoding := [] }
      else { r with body := some b }) := by
    unfold versionPatchFull
    rw [if_pos ⟨hreq, hpath, hct⟩, hb]
    show (match parse b with
      | none => { r with body := some b }
      | some m => _) = _
    rw [hm]
    show (match List.lookup "version" m with
      | some (JVal.jstr v) => _
      | _ => { r with body := some b }) = _
    rw [hv]
  constructor
  · intro hbad
    rw [hmain, if_pos hbad]
    exact ⟨rfl, rfl, rfl⟩
  · intro hgood
    rw [hmain, if_neg hgood]

/-- C4 witness: `{"version":"0.0.0"}` with no fallback becomes
`{"version":"0.15.2"}` with `Content-Length` 20; `{"version":"1.2.3"}`
would pass through. -/
theorem C4_version_patch_witness :
    (({ hasRequest := true, reqPath := "/api/version", statusCode := 200,
        contentTypeHdr := "application/json",
        body := some "\x7b\"version\":\"0.0.0\"\x7d".data,
        transferEncoding := [], teHdr := none, contentLengthHdr := none,
        contentLength := 19 } : Resp).hasRequest = true ∧
      "/api/version".data <:+ ("/api/version" : String).data ∧
      "application/json".data <:+: ("application/json" : String).data ∧
      (some "\x7b\"version\":\"0.0.0\"\x7d".data :
        Option (List Char)) = some "\x7b\"version\":\"0.0.0\"\x7d".data ∧
      List.lookup "version" [("version", JVal.jstr "0.0.0")] =
        some (JVal.jstr "0.0.0")) ∧
    ((("0.0.0" : String) = "0.0.0" ∨ ("0.0.0" : String) = "0.0.0.0") →
      (versionPatchFull (fun _ => some [("version", JVal.jstr "0.0.0")]) ""
        { hasRequest := true, reqPath := "/api/version", statusCode := 200,
          contentTypeHdr := "application/json",
          body := some "\x7b\"version\":\"0.0.0\"\x7d".data,
          transferEncoding := [], teHdr := none, contentLengthHdr := none,
          contentLength := 19 }).body =
        some (marshal (JVal.jobj (setKey [("version", JVal.jstr "0.0.0")] "version"
          (JVal.jstr (if ("" : String) = "" then "0.15.2" else ""))))) ∧
      (versionPatchFull (fun _ => some [("version", JVal.jstr "0.0.0")]) ""
        { hasRequest := true, reqPath := "/api/version", statusCode := 200,
          contentTypeHdr := "application/json",
          body := some "\x7b\"version\":\"0.0.0\"\x7d".data,
          transferEncoding := [], teHdr := none, contentLengthHdr := none,
          contentLength := 19 }).contentLengthHdr =
        some (toString (marshal (JVal.jobj (setKey [("version", JVal.jstr "0.0.0")]
          "version" (JVal.jstr (if ("" : String) = "" then "0.15.2" else ""))))).length) ∧
      (versionPatchFull (fun _ => some [("version", JVal.jstr "0.0.0")]) ""
        { hasRequest := true, reqPath := "/api/version", statusCode := 200,
          contentTypeHdr := "application/json",
          body := some "\x7b\"version\":\"0.0.0\"\x7d".data,
          transferEncoding := [], teHdr := none, contentLengthHdr := none,
          contentLength := 19 }).contentLength =
        ((marshal (JVal.jobj (setKey [("version", JVal.jstr "0.0.0")] "version"
          (JVal.jstr (if ("" : String) = "" then "0.15.2" else ""))))).length : Int)) :=
  ⟨⟨rfl, by decide, by decide, rfl, rfl⟩,
    (C4_version_patch (fun _ => some [("version", JVal.jstr "0.0.0")]) ""
      { hasRequest := true, reqPath := "/api/version", statusCode := 200,
        contentTypeHdr := "application/json",
        body := some "\x7b\"version\":\"0.0.0\"\x7d".data,
        transferEncoding := [], teHdr := none, contentLengthHdr := none,
        contentLength := 19 } [("version", JVal.jstr "0.0.0")] "0.0.0"
      "\x7b\"version\":\"0.0.0\"\x7d".data rfl (by decide) (by decide) rfl rfl
      rfl).1⟩

/-- C5: a chunked `/api/version` response patched by the `part_002`
snapshot keeps `Transfer-Encoding: chunked` while gaining a
`Content-Length` header, violating the framing invariant; the `part_001`
snapshot removes the chunked marker at the same input. -/
theorem C5_framing_eval :
    ((versionPatchNoTE (fun _ => some [("version", JVal.jstr "0.0.0")]) ""
      { hasRequest := true, reqPath := "/api/version", statusCode := 200,
        contentTypeHdr := "application/json",
        body := some "\x7b\"version\":\"0.0.0\"\x7d".data,
        transferEncoding := ["chunked"], teHdr := some "chunked",
        contentLengthHdr := none, contentLength := -1 }).transferEncoding =
        ["chunked"] ∧
     (versionPatchNoTE (fun _ => some [("version", JVal.jstr "0.0.0")]) ""
      { hasRequest := true, reqPath := "/api/version", statusCode := 200,
        contentTypeHdr := "application/json",
        body := some "\x7b\"version\":\"0.0.0\"\x7d".data,
        transferEncoding := ["chunked"], teHdr := some "chunked",
        contentLengthHdr := none, contentLength := -1 }).contentLengthHdr =
        some "20") ∧
    ((versionPatchFull (fun _ => some [("version", JVal.jstr "0.0.0")]) ""
      { hasRequest := true, reqPath := "/api/version", statusCode := 200,
        contentTypeHdr := "application/json",
        body := some "\x7b\"version\":\"0.0.0\"\x7d".data,
        transferEncoding := ["chunked"], teHdr := some "chunked",
        contentLengthHdr := none, contentLength := -1 }).transferEncoding = [] ∧
     (versionPatchFull (fun _ => some [("version", JVal.jstr "0.0.0")]) ""
      { hasRequest := true, reqPath := "/api/version", statusCode := 200,
        contentTypeHdr := "application/json",
        body := some "\x7b\"version\":\"0.0.0\"\x7d".data,
        transferEncoding := ["chunked"], teHdr := some "chunked",
        contentLengthHdr := none, contentLength := -1 }).contentLengthHdr =
        some "20") := by decide

/-- C8 (counterexample): on `"Bearer Bearer x"` the implementation's
split-based sweep redacts both occurrences, while the spec contract
(replace `"Bearer "` plus the maximal non-whitespace run, scanning left to
right) leaves `" x"` behind - the two disagree. -/
theorem C8_counterexample :
    maskSensitive [] "Bearer Bearer x".data ≠
      redactSpecC8 [] "Bearer Bearer x".data := by decide

/-- C8 (amended): the implementation agrees with the spec's redaction
contract whenever the text after exact-secret replacement contains at most
one `"Bearer "` occurrence (so no occurrence lies inside another bearer
token's non-whitespace run), for secrets that cannot collide with the
placeholder; on overlapping occurrences the implementation splits on every
`"Bearer "` first and redacts each following token piece. -/
theorem C8_redactor_contract (K s : List Char)
    (hvalid : K = [] ∨ ('[' ∉ K ∧ ']' ∉ K ∧ ¬ K <:+: redactedStr))
    (hcount : (splitOnSep bearerSp
      (if K ≠ [] then replaceAll K redactedStr s else s)).length ≤ 2) :
    maskSensitive K s = redactSpecC8 K s :=
  maskSensitive_eq_redactSpecC8 K s hvalid hcount

/-- C8 witness. -/
theorem C8_redactor_contract_witness :
    (("sk".data = ([] : List Char) ∨
      ('[' ∉ "sk".data ∧ ']' ∉ "sk".data ∧ ¬ "sk".data <:+: redactedStr)) ∧
     (splitOnSep bearerSp
       (if "sk".data ≠ [] then
         replaceAll "sk".data redactedStr "auth sk Bearer tok123 end".data
       else "auth sk Bearer tok123 end".data)).length ≤ 2) ∧
    maskSensitive "sk".data "auth sk Bearer tok123 end".data =
      redactSpecC8 "sk".data "auth sk Bearer tok123 end".data :=
  ⟨by decide,
    C8_redactor_contract "sk".data "auth sk Bearer tok123 end".data
      (by decide) (by decide)⟩

/-- C9: when the `/api/version` body fails to unmarshal as a JSON object,
the rewrite is atomic - the exact original bytes are delivered and the
response headers and framing fields are untouched (and ModifyResponse
returns nil on every path, so no error reaches the client), in both patch
variants. -/
theorem C9_malformed_json_passthrough
    (parse : List Char → Option (List (String × JVal)))
    (fallback : String) (r : Resp) (b : List Char)
    (hb : r.body = some b) (hm : parse b = none) :
    (versionPatchFull parse fallback r).body = some b ∧
    (versionPatchNoTE parse fallback r).body = some b ∧
    (versionPatchFull parse fallback r).contentLengthHdr = r.contentLengthHdr ∧
    (versionPatchFull parse fallback r).transferEncoding = r.transferEncoding ∧
    (versionPatchNoTE parse fallback r).contentLengthHdr = r.contentLengthHdr ∧
    (versionPatchNoTE parse fallback r).transferEncoding = r.transferEncoding := by
  have h1 : versionPatchFull parse fallback r = { r with body := some b } ∨
      versionPatchFull parse fallback r = r := by
    unfold versionPatchFull
    by_cases hc : r.hasRequest = true ∧ "/api/version".data <:+ r.reqPath.data ∧
        "application/json".data <:+: r.contentTypeHdr.data
    · rw [if_pos hc, hb]
      show (match parse b with
        | none => { r with body := some b }
        | some m => _) = { r with body := some b } ∨ _ = r
      rw [hm]
      exact Or.inl rfl
    · rw [if_neg hc]
      exact Or.inr rfl
  have h2 : versionPatchNoTE parse fallback r = { r with body := some b } ∨
      versionPatchNoTE parse fallback r = r := by
    unfold versionPatchNoTE
    by_cases hc : r.hasRequest = true ∧ "/api/version".data <:+ r.reqPath.data ∧
        "application/json".data <:+: r.contentTypeHdr.data
    · rw [if_pos hc, hb]
      show (match parse b with
        | none => { r with body := some b }
        | some m => _) = { r with body := some b } ∨ _ = r
      rw [hm]
      exact Or.inl rfl
    · rw [if_neg hc]
      exact Or.inr rfl
  rcases h1 with h1 | h1 <;> rcases h2 with h2 | h2 <;>
    rw [h1, h2] <;> simp [hb]

/-- C9 witness. -/
theorem C9_malformed_json_passthrough_witness :
    (({ hasRequest := true, reqPath := "/api/version", statusCode := 200,
        contentTypeHdr := "application/json", body := some "not json".data,
        transferEncoding := [], teHdr := none,
        contentLengthHdr := some "8", contentLength := 8 } : Resp).body =
      some "not json".data ∧
     (fun (_ : List Char) =>
       (none : Option (List (String × JVal)))) "not json".data = none) ∧
    ((versionPatchFull (fun _ => none) ""
        { hasRequest := true, reqPath := "/api/version", statusCode := 200,
          contentTypeHdr := "application/json", body := some "not json".data,
          transferEncoding := [], teHdr := none,
          contentLengthHdr := some "8", contentLength := 8 }).body =
      some "not json".data ∧
     (versionPatchNoTE (fun _ => none) ""
        { hasRequest := true, reqPath := "/api/version", statusCode := 200,
          contentTypeHdr := "application/json", body := some "not json".data,
          transferEncoding := [], teHdr := none,
          contentLengthHdr := some "8", contentLength := 8 }).body =
      some "not json".data ∧
     (versionPatchFull (fun _ => none) ""
        { hasRequest := true, reqPath := "/api/version", statusCode := 200,
          contentTypeHdr := "application/json", body := some "not json".data,
          transferEncoding := [], teHdr := none,
          contentLengthHdr := some "8", contentLength := 8 }).contentLengthHdr =
      some "8" ∧
     (versionPatchFull (fun _ => none) ""
        { hasRequest := true, reqPath := "/api/version", statusCode := 200,
          contentTypeHdr := "application/json", body := some "not json".data,
          transferEncoding := [], teHdr := none,
          contentLengthHdr := some "8", contentLength := 8 }).transferEncoding =
      [] ∧
     (versionPatchNoTE (fun _ => none) ""
        { hasRequest := true, reqPath := "/api/version", statusCode := 200,
          contentTypeHdr := "application/json", body := some "not json".data,
          transferEncoding := [], teHdr := none,
          contentLengthHdr := some "8", contentLength := 8 }).contentLengthHdr =
      some "8" ∧
     (versionPatchNoTE (fun _ => none) ""
        { hasRequest := true, reqPath := "/api/version", statusCode := 200,
          contentTypeHdr := "application/json", body := some "not json".data,
          transferEncoding := [], teHdr := none,
          contentLengthHdr := some "8", contentLength := 8 }).transferEncoding =
      []) :=
  ⟨⟨rfl, rfl⟩,
    C9_malformed_json_passthrough (fun _ => none) ""
      { hasRequest := true, reqPath := "/api/version", statusCode := 200,
        contentTypeHdr := "application/json", body := some "not json".data,
        transferEncoding := [], teHdr := none,
        contentLengthHdr := some "8", contentLength := 8 } "not json".data rfl rfl⟩

/-- C10 (counterexample): `responseLogger.Read` calls `log()` on every read
that observes `io.EOF` without checking the `logged` flag, so a read issued
after EOF emits the diagnostic record a second time. -/
theorem C10_counterexample :
    (runLogger "ab".data [LogOp.read 2, LogOp.read 2, LogOp.read 2]).logCount =
      2 := by decide

/-- C10 (amended): when all reads precede the closes and at most one read
observes `io.EOF`, the diagnostic record is emitted exactly once for a
consumed-to-EOF or closed body and zero times otherwise; every additional
read after EOF would emit it again. -/
theorem C10_log_once (body : List Char) (ops : List LogOp)
    (hwf : readsThenCloses ops = true)
    (hone : (runLogger body ops).eofReads ≤ 1) :
    (runLogger body ops).logCount =
      if 1 ≤ (runLogger body ops).eofReads ∨ 1 ≤ (runLogger body ops).closes
      then 1 else 0 := by
  have h := runLogger_count ops (initLogger body) hwf
    ⟨by simp [initLogger], by simp [initLogger]⟩ rfl
  unfold runLogger at hone ⊢
  split_ifs with hcond
  · rcases hcond with hc | hc
    · rw [h, if_neg (by omega)]
      omega
    · rw [h]
      by_cases he : (List.foldl loggerStep (initLogger body) ops).eofReads = 0
      · rw [if_pos ⟨hc, he⟩]; omega
      · rw [if_neg (by intro hcont; exact he hcont.2)]
        omega
  · push_neg at hcond
    rw [h, if_neg (by omega)]
    omega

/-- C10 witness: read to EOF once, then close - exactly one record. -/
theorem C10_log_once_witness :
    (readsThenCloses [LogOp.read 1, LogOp.read 1, LogOp.close] = true ∧
     (runLogger "a".data [LogOp.read 1, LogOp.read 1, LogOp.close]).eofReads ≤ 1) ∧
    (runLogger "a".data [LogOp.read 1, LogOp.read 1, LogOp.close]).logCount =
      (if 1 ≤ (runLogger "a".data
            [LogOp.read 1, LogOp.read 1, LogOp.close]).eofReads ∨
          1 ≤ (runLogger "a".data
            [LogOp.read 1, LogOp.read 1, LogOp.close]).closes
       then 1 else 0) :=
  ⟨by decide,
    C10_log_once "a".data [LogOp.read 1, LogOp.read 1, LogOp.close]
      (by decide) (by decide)⟩

end OllamaProxy
